import Mathlib

/-!
NumberedTextEditor (libpgmodeler_ui/src/numberedtexteditor.cpp)

A shallow embedding of the editing logic of pgModeler's `NumberedTextEditor`:
the tab-width policy, the gutter width, the line-counting loop of the gutter,
the case conversion of the selection and the block indent / outdent.

Conventions of the embedding.

* C++ `int` is 32 bits wide.  An `int` value is an `Int` in the range of
  `IsInt32`; the result of a multiplication or an addition of pixel sizes and
  counts is wrapped into that range by `wrapInt`, an `unsigned` value is
  wrapped by `wrapUnsigned`.  `int` division is `Int.tdiv` (truncation towards
  zero).  Character positions stay far below the range and are not wrapped.
* The text document is modelled by its plain text (`toPlainText()`), a
  `List Char` in which `'\n'` is the block separator (`selectedText()` writes
  it as the paragraph separator, on which the source splits).  A cursor
  position is an index into that text, `0 ≤ pos ≤ length`; characters are
  counted one by one.
* The Qt primitives the source calls are modelled after the Qt library:
  `QString::indexOf` and `lastIndexOf` return `-1` when the character is not
  found, `lastIndexOf(ch, from)` looks at `from` itself and downwards,
  `indexOf(ch, from)` at `from` itself and upwards; `QTextCursor::setPosition`
  refuses a position outside the document and leaves the cursor as it is;
  `insertText` replaces the selection and leaves the cursor after the inserted
  text, with no selection.
* `QString::toUpper` / `toLower` are parameters of the model: a mapping from
  one character to the characters that replace it.
* The result of a command is the text of the document and the cursor of the
  widget after the command.  A command that does not reach `setTextCursor`
  leaves both as they were.
-/

namespace NumberedTextEditor

/-! ## Machine integers -/

/-- Whether an integer is a value of the 32-bit C++ `int`. -/
def IsInt32 (x : Int) : Prop := -2147483648 ≤ x ∧ x ≤ 2147483647

instance (x : Int) : Decidable (IsInt32 x) := by
  unfold IsInt32; infer_instance

/-- The `int` that a 32-bit computation with the exact result `x` yields
(two's complement wrap-around). -/
def wrapInt (x : Int) : Int := (x + 2147483648) % 4294967296 - 2147483648

/-- The `unsigned` that a 32-bit computation with the exact result `x` yields,
also the value of `static_cast<unsigned>(x)`. -/
def wrapUnsigned (x : Int) : Nat := (x % 4294967296).toNat

/-! ## Tab width policy -/

/-- Body of `NumberedTextEditor::setTabWidth(int value)`: the new value of the
static `tab_width`. -/
def setTabWidth (value : Int) : Int :=
  if value < 0 then 0 else value

/-- Body of `NumberedTextEditor::getTabWidth()`, for the stored `tab_width` and
the measured width `fm.width(' ')` of the space character in the default
font. -/
def getTabWidth (tab_width : Int) (spaceWidth : Int) : Int :=
  if tab_width = 0 then 80 else wrapInt (tab_width * spaceWidth)

/-! ## Gutter width -/

/-- The loop `while(max >= 10) { max /= 10; ++digits; }` of
`getLineNumbersWidth`; the result is the final value of `digits`. -/
def digitsLoop (max : Int) (digits : Int) : Int :=
  if 10 ≤ max then digitsLoop (max.tdiv 10) (digits + 1) else digits
termination_by max.toNat
decreasing_by
  have h1 : max.tdiv 10 = max / 10 := Int.tdiv_eq_ediv (by omega) (by omega)
  rw [h1]
  omega

/-- Body of `NumberedTextEditor::getLineNumbersWidth()`, for the width
`fontMetrics().width('9')` of a digit and the value of `blockCount()`. -/
def getLineNumbersWidth (digitWidth : Int) (blockCount : Int) : Int :=
  let digits : Int := 1
  let max : Int := Max.max 1 blockCount
  wrapInt (15 + wrapInt (digitWidth * digitsLoop max digits))

/-- Number of decimal digits of a natural number, as the spec words it
(`digit_count`). -/
def digitCount (n : Nat) : Nat := (Nat.digits 10 n).length

/-- The computation `15 + w * d` of the gutter width stays inside `int`: both
the product and the sum are `int` values. -/
def WidthFits (w : Int) (d : Nat) : Prop :=
  IsInt32 (w * d) ∧ IsInt32 (15 + w * d)

instance (w : Int) (d : Nat) : Decidable (WidthFits w d) := by
  unfold WidthFits; infer_instance

/-! ## Gutter line counting -/

/-- A text block of the document as `updateLineNumbers` reads it:
`block.isVisible()` and `static_cast<int>(blockBoundingRect(block).height())`. -/
structure QTextBlock where
  isVisible : Bool
  height : Int
deriving DecidableEq, Repr

/-- The local variables of `updateLineNumbers` that its loop updates; the two
line counters are `unsigned`, the others `int`. -/
structure LineLoopState where
  block_number : Int
  top : Int
  bottom : Int
  first_line : Nat
  line_count : Nat
deriving DecidableEq, Repr

/-- Height of the bounding rectangle of the block at the head of the list; an
invalid block (past the last one) has an empty rectangle. -/
def blockHeight : List QTextBlock → Int
  | [] => 0
  | b :: _ => b.height

/-- One pass through the body of the loop of `updateLineNumbers`, up to the
test that leaves the loop: `b` is the current block and `rest` the blocks after
it. -/
def lineNumbersStep (b : QTextBlock) (rest : List QTextBlock) (st : LineLoopState) :
    LineLoopState :=
  let st1 : LineLoopState :=
    if b.isVisible then
      { st with
        line_count := wrapUnsigned ((st.line_count : Int) + 1)
        first_line :=
          if st.first_line = 0 then wrapUnsigned (wrapInt (st.block_number + 1))
          else st.first_line }
    else st
  { st1 with
    top := st1.bottom
    bottom := wrapInt (st1.bottom + blockHeight rest)
    block_number := wrapInt (st1.block_number + 1) }

/-- The loop `while(block.isValid()) { ... }` of `updateLineNumbers`.  The list
holds the valid blocks from the current one to the end of the document
(`block.next()` is the tail); `fh` is `fontMetrics().height()` and `h` is
`this->height()`. -/
def lineNumbersLoop (fh h : Int) : List QTextBlock → LineLoopState → LineLoopState
  | [], st => st
  | b :: rest, st =>
    let st2 := lineNumbersStep b rest st
    if wrapInt (wrapInt (st2.line_count : Int) * fh) > h then st2
    else lineNumbersLoop fh h rest st2

/-- Body of `NumberedTextEditor::updateLineNumbers()` up to the call
`drawLineNumbers(first_line, line_count, dy)`: the arguments of that call, or
`none` when the line numbers are hidden.  `blocks` are the blocks from
`firstVisibleBlock()` to the end of the document, `block_number` the number of
the first of them and `top` its top in widget coordinates. -/
def updateLineNumbers (line_nums_visible : Bool) (blocks : List QTextBlock)
    (block_number top fh h : Int) : Option (Nat × Nat × Int) :=
  if !line_nums_visible then none
  else
    let bottom := wrapInt (top + blockHeight blocks)
    let dy := top
    let st := lineNumbersLoop fh h blocks
      { block_number := block_number, top := top, bottom := bottom,
        first_line := 0, line_count := 0 }
    some (st.first_line, st.line_count, dy)

/-! ## Strings and cursors -/

/-- Forward search of `QString::indexOf`: index of the first `ch` in the list,
counted from `i`, or `-1`. -/
def indexOfAux (ch : Char) : List Char → Nat → Int
  | [], _ => -1
  | c :: cs, i => if c = ch then (i : Int) else indexOfAux ch cs (i + 1)

/-- `QString::indexOf(QChar ch, int from)`: index of the first occurrence of
`ch` at a position `≥ from`, or `-1`. -/
def indexOf (s : List Char) (ch : Char) (from_ : Int) : Int :=
  let len : Int := s.length
  let from1 : Int := if from_ < 0 then Max.max (from_ + len) 0 else from_
  if from1 < len then indexOfAux ch (s.drop from1.toNat) from1.toNat else -1

/-- Backward search of `QString::lastIndexOf`: the largest index `< n` that
holds `ch`, or `-1`. -/
def lastIndexOfAux (s : List Char) (ch : Char) : Nat → Int
  | 0 => -1
  | n + 1 => if s.get? n = some ch then (n : Int) else lastIndexOfAux s ch n

/-- `QString::lastIndexOf(QChar ch, int from)`: index of the last occurrence of
`ch` at a position `≤ from`, or `-1`; a `from` outside the string gives `-1`. -/
def lastIndexOf (s : List Char) (ch : Char) (from_ : Int) : Int :=
  let len : Int := s.length
  let from1 : Int := if from_ < 0 then from_ + len else from_
  if from1 < 0 ∨ len ≤ from1 then -1 else lastIndexOfAux s ch (from1.toNat + 1)

/-- `QString::split(QChar sep)` (empty parts kept): the empty string splits
into one empty part. -/
def split (sep : Char) : List Char → List (List Char)
  | [] => [[]]
  | c :: cs =>
    if c = sep then [] :: split sep cs
    else
      match split sep cs with
      | [] => [[c]]
      | l :: ls => (c :: l) :: ls

/-- `QStringList::join(QChar sep)`. -/
def join (sep : Char) : List (List Char) → List Char
  | [] => []
  | [l] => l
  | l :: ls => l ++ sep :: join sep ls

/-- A `QTextCursor` together with the plain text of the document it works on:
`anchor` and `position` are character positions, `0 ≤ pos ≤ text.length`. -/
structure TextCursor where
  text : List Char
  anchor : Nat
  position : Nat
deriving DecidableEq, Repr

/-- `QTextCursor::MoveMode`. -/
inductive MoveMode where
  | MoveAnchor
  | KeepAnchor
deriving DecidableEq, Repr

/-- `QTextCursor::hasSelection()`. -/
def hasSelection (c : TextCursor) : Bool := c.anchor != c.position

/-- `QTextCursor::selectionStart()`. -/
def selectionStart (c : TextCursor) : Nat := Min.min c.anchor c.position

/-- `QTextCursor::selectionEnd()`. -/
def selectionEnd (c : TextCursor) : Nat := Max.max c.anchor c.position

/-- `QTextCursor::selectedText()`, block separators written as `'\n'`. -/
def selectedText (c : TextCursor) : List Char :=
  (c.text.drop (selectionStart c)).take (selectionEnd c - selectionStart c)

/-- `QTextCursor::setPosition(int pos, MoveMode m)`: a position outside the
document (`pos < 0` or `pos >=` the document length, which counts the final
block end) is refused and the cursor stays as it is. -/
def setPosition (c : TextCursor) (pos : Int) (m : MoveMode) : TextCursor :=
  if pos < 0 ∨ (c.text.length : Int) + 1 ≤ pos then c
  else
    match m with
    | MoveMode.MoveAnchor => { c with anchor := pos.toNat, position := pos.toNat }
    | MoveMode.KeepAnchor => { c with position := pos.toNat }

/-- `QTextCursor::insertText(text)`: the selection is removed, the text is
inserted in its place and the cursor stands after it with no selection. -/
def insertText (c : TextCursor) (s : List Char) : TextCursor :=
  { text := c.text.take (selectionStart c) ++ s ++ c.text.drop (selectionEnd c)
    anchor := selectionStart c + s.length
    position := selectionStart c + s.length }

/-- A cursor of the document: both ends lie inside the text. -/
def TextCursor.Valid (c : TextCursor) : Prop :=
  c.anchor ≤ c.text.length ∧ c.position ≤ c.text.length

instance (c : TextCursor) : Decidable c.Valid := by
  unfold TextCursor.Valid; infer_instance

/-! ## Case conversion -/

/-- `QString::toUpper()` / `toLower()` for a given full case mapping of single
characters (one character may map to several, as `ß` to `SS`). -/
def convertCase (f : Char → List Char) (s : List Char) : List Char :=
  s.flatMap f

/-- Body of `NumberedTextEditor::changeSelectionCase(bool lower)`; the result
is the text and the cursor of the widget afterwards.  `toUpper` and `toLower`
are the case mappings of the Qt library. -/
def changeSelectionCase (toUpper toLower : Char → List Char) (lower : Bool)
    (ed : TextCursor) : TextCursor :=
  if hasSelection ed then
    let start : Int := selectionStart ed
    let end_ : Int := selectionEnd ed
    let cursor :=
      if !lower then insertText ed (convertCase toUpper (selectedText ed))
      else insertText ed (convertCase toLower (selectedText ed))
    let cursor := setPosition cursor start MoveMode.MoveAnchor
    let cursor := setPosition cursor end_ MoveMode.KeepAnchor
    cursor
  else ed

/-! ## Indent / outdent -/

/-- The loop `for(int i=0; i < lines.size(); i++)` of `identSelection`: the
lines after the loop and the final value of `count`. -/
def identLines (ident_right : Bool) : List (List Char) → Nat → List (List Char) × Nat
  | [], count => ([], count)
  | l :: ls, count =>
    if !l.isEmpty then
      if ident_right then
        let r := identLines ident_right ls (count + 1)
        (('\t' :: l) :: r.1, r.2)
      else if l.head? = some '\t' then
        let r := identLines ident_right ls (count + 1)
        (l.drop 1 :: r.1, r.2)
      else
        let r := identLines ident_right ls count
        (l :: r.1, r.2)
    else
      let r := identLines ident_right ls count
      (l :: r.1, r.2)

/-- The cursor of `identSelection` after the two `setPosition` calls that
select the working range. -/
def workingRange (ed : TextCursor) : TextCursor :=
  let start : Int := lastIndexOf ed.text '\n' (selectionStart ed)
  let end_ : Int := indexOf ed.text '\n' (selectionEnd ed)
  let cursor := setPosition ed start MoveMode.MoveAnchor
  setPosition cursor end_ MoveMode.KeepAnchor

/-- Body of `NumberedTextEditor::identSelection(bool ident_right)`; the result
is the text and the cursor of the widget afterwards. -/
def identSelection (ident_right : Bool) (ed : TextCursor) : TextCursor :=
  if hasSelection ed then
    let factor : Int := if ident_right then 1 else -1
    let start : Int := lastIndexOf ed.text '\n' (selectionStart ed)
    let end_ : Int := indexOf ed.text '\n' (selectionEnd ed)
    let cursor := workingRange ed
    let lines := split '\n' (selectedText cursor)
    let r := identLines ident_right lines 0
    let count : Int := r.2
    if count > 0 then
      let cursor := insertText cursor (join '\n' r.1)
      let cursor := setPosition cursor start MoveMode.MoveAnchor
      let cursor := setPosition cursor (end_ + count * factor) MoveMode.KeepAnchor
      cursor
    else ed
  else ed

/-- `NumberedTextEditor::identSelectionRight()`. -/
def identSelectionRight (ed : TextCursor) : TextCursor := identSelection true ed

/-- `NumberedTextEditor::identSelectionLeft()`. -/
def identSelectionLeft (ed : TextCursor) : TextCursor := identSelection false ed

/-- `NumberedTextEditor::changeSelectionToLower()`. -/
def changeSelectionToLower (toUpper toLower : Char → List Char) (ed : TextCursor) :
    TextCursor :=
  changeSelectionCase toUpper toLower true ed

/-- `NumberedTextEditor::changeSelectionToUpper()`. -/
def changeSelectionToUpper (toUpper toLower : Char → List Char) (ed : TextCursor) :
    TextCursor :=
  changeSelectionCase toUpper toLower false ed

/-- A cursor over the text of a string. -/
def mkCursor (s : String) (anchor position : Nat) : TextCursor :=
  { text := s.toList, anchor := anchor, position := position }

/-- Indent of one line as the spec words it: a tab is prepended to a non-empty
line. -/
def indentLineSpec (l : List Char) : List Char :=
  if l = [] then l else '\t' :: l

/-- Outdent of one line as the spec words it: a single leading tab is removed
from a line that begins with one. -/
def outdentLineSpec : List Char → List Char
  | '\t' :: r => r
  | l => l

/-- The per-line transformation of the spec for a direction. -/
def identLineSpec (ident_right : Bool) (l : List Char) : List Char :=
  if ident_right then indentLineSpec l else outdentLineSpec l

/-- Whether the spec's transformation changes a line: a non-empty line for the
indent, a line beginning with a tab for the outdent. -/
def lineChangesSpec (ident_right : Bool) (l : List Char) : Bool :=
  if ident_right then !l.isEmpty else l.head? == some '\t'

/-- The lines of the text between the positions `a` and `b`, as the spec
splits the expanded range. -/
def rangeLinesSpec (text : List Char) (a b : Nat) : List (List Char) :=
  split '\n' ((text.drop a).take (b - a))

/-- The text the spec describes for an indent or outdent of the range from `a`
to `b`: the range is split into lines, each line is transformed, the lines are
joined again and replace the range. -/
def identRangeSpec (ident_right : Bool) (text : List Char) (a b : Nat) : List Char :=
  text.take a ++ join '\n' ((rangeLinesSpec text a b).map (identLineSpec ident_right))
    ++ text.drop b

/-- Number of lines of the range that the spec's transformation changes. -/
def changedLinesSpec (ident_right : Bool) (text : List Char) (a b : Nat) : Nat :=
  (rangeLinesSpec text a b).countP (lineChangesSpec ident_right)

/-- Number of the line (block) that holds the position `p`: the number of line
breaks before `p`. -/
def lineOfPosition (text : List Char) (p : Nat) : Nat :=
  (text.take p).count '\n'

/-- The spec's transformation applied to the lines numbered `first` to `last`
of a list of lines whose head has the number `i`. -/
def identLinesBetweenSpec (ident_right : Bool) (first last : Nat) :
    Nat → List (List Char) → List (List Char)
  | _, [] => []
  | i, l :: ls =>
    (if first ≤ i ∧ i ≤ last then identLineSpec ident_right l else l)
      :: identLinesBetweenSpec ident_right first last (i + 1) ls

/-- The text the spec describes for an indent or outdent of a selection: every
line from the first selected line (the one that holds the selection start)
through the last selected line (the one that holds the selection end), taken
as a whole line, is transformed; everything else stays. -/
def identWholeLinesSpec (ident_right : Bool) (c : TextCursor) : List Char :=
  join '\n'
    (identLinesBetweenSpec ident_right (lineOfPosition c.text (selectionStart c))
      (lineOfPosition c.text (selectionEnd c)) 0 (split '\n' c.text))

/-- A sample upper-case mapping with one expanding character: `a ↦ A`,
`ß ↦ SS`, every other character unchanged. -/
def sampleToUpper (c : Char) : List Char :=
  if c = 'a' then ['A'] else if c = 'ß' then ['S', 'S'] else [c]

/-- A sample lower-case mapping: `A ↦ a`, every other character unchanged. -/
def sampleToLower (c : Char) : List Char :=
  if c = 'A' then ['a'] else [c]

/-! ## Theorems -/

/-! ### Machine integers -/

theorem wrapInt_of_isInt32 (x : Int) (h : IsInt32 x) : wrapInt x = x := by
  unfold IsInt32 at h
  unfold wrapInt
  omega

theorem wrapUnsigned_of_nonneg (x : Int) (h0 : 0 ≤ x) (h1 : x ≤ 4294967295) :
    (wrapUnsigned x : Int) = x := by
  unfold wrapUnsigned
  omega

/-! ### Gutter width -/

theorem digitsLoop_eq_log (m : Nat) : ∀ (d : Int), digitsLoop (m : Int) d = d + (Nat.log 10 m : Int) := by
  induction m using Nat.strong_induction_on with
  | _ m ih =>
    intro d
    rw [digitsLoop]
    split
    · rename_i h
      have hm : 10 ≤ m := by exact_mod_cast h
      have h1 : (m : Int).tdiv 10 = ((m / 10 : Nat) : Int) := by
        rw [Int.tdiv_eq_ediv (by omega) (by omega)]
        norm_cast
      rw [h1, ih (m / 10) (by omega)]
      have h2 : Nat.log 10 m = Nat.log 10 (m / 10) + 1 := Nat.log_of_one_lt_of_le (by norm_num) hm
      rw [h2]
      push_cast
      ring
    · rename_i h
      have hm : m < 10 := by
        have : ¬ (10 ≤ m) := by intro h'; exact h (by exact_mod_cast h')
        omega
      rw [Nat.log_of_lt hm]
      simp

theorem digitCount_eq_log (n : Nat) (hn : n ≠ 0) : digitCount n = Nat.log 10 n + 1 :=
  Nat.digits_len 10 n (by norm_num) hn

theorem max_one_toNat_pos (n : Int) : (Max.max 1 n).toNat ≠ 0 := by
  have : (1 : Int) ≤ Max.max 1 n := le_max_left 1 n
  omega

theorem digitsLoop_eq_log_toNat (m d : Int) (hm : 0 ≤ m) :
    digitsLoop m d = d + (Nat.log 10 m.toNat : Int) := by
  have h := digitsLoop_eq_log m.toNat d
  rwa [Int.toNat_of_nonneg hm] at h

theorem digitsLoop_eq_digitCount (n : Int) :
    digitsLoop (Max.max 1 n) 1 = (digitCount (Max.max 1 n).toNat : Int) := by
  have hd := digitCount_eq_log _ (max_one_toNat_pos n)
  have h1 : (1 : Int) ≤ Max.max 1 n := le_max_left 1 n
  rw [digitsLoop_eq_log_toNat _ _ (by omega), hd]
  push_cast; ring

/-- The gutter width in closed form, when the computation stays inside `int`. -/
theorem getLineNumbersWidth_eq (w n : Int)
    (hfit : WidthFits w (digitCount (Max.max 1 n).toNat)) :
    getLineNumbersWidth w n = 15 + w * (digitCount (Max.max 1 n).toNat : Int) := by
  unfold getLineNumbersWidth
  simp only []
  rw [digitsLoop_eq_digitCount, wrapInt_of_isInt32 _ hfit.1, wrapInt_of_isInt32 _ hfit.2]

theorem widthFits_of_succ (w : Int) (d : Nat) (h : WidthFits w (d + 1)) : WidthFits w d := by
  unfold WidthFits IsInt32 at h ⊢
  obtain ⟨⟨h1, h2⟩, h3, h4⟩ := h
  push_cast at h1 h2 h3 h4
  have hd : (0 : Int) ≤ d := Int.ofNat_nonneg d
  rcases le_or_lt 0 w with hw | hw
  · have hwd : 0 ≤ w * d := mul_nonneg hw hd
    have e : w * ((d : Int) + 1) = w * d + w := by ring
    rw [e] at h1 h2 h3 h4
    refine ⟨⟨by omega, by omega⟩, by omega, by omega⟩
  · have hwd : w * d ≤ 0 := mul_nonpos_of_nonpos_of_nonneg (le_of_lt hw) hd
    have e : w * ((d : Int) + 1) = w * d + w := by ring
    rw [e] at h1 h2 h3 h4
    refine ⟨⟨by omega, by omega⟩, by omega, by omega⟩

theorem digitCount_pow_ten (k : Nat) : digitCount (10 ^ k) = k + 1 := by
  rw [digitCount_eq_log _ (by positivity), Nat.log_pow (by norm_num)]

theorem digitCount_pow_ten_pred (k : Nat) (hk : 1 ≤ k) : digitCount (10 ^ k - 1) = k := by
  have hp : (1 : Nat) ≤ 10 ^ (k - 1) := Nat.one_le_pow _ _ (by norm_num)
  have hpk : (10 : Nat) ^ k = 10 * 10 ^ (k - 1) := by
    rw [← pow_succ']; congr 1; omega
  rw [digitCount_eq_log _ (by omega)]
  have e3 : Nat.log 10 (10 ^ k - 1) = k - 1 := by
    rcases Nat.eq_zero_or_pos (k - 1) with h0 | hpos
    · have hk1 : k = 1 := by omega
      subst hk1
      exact Nat.log_of_lt (by norm_num)
    · rw [Nat.log_eq_iff (Or.inl (by omega))]
      constructor
      · omega
      · have : k - 1 + 1 = k := by omega
        rw [this]; omega
  rw [e3]; omega

theorem digitCount_succ_eq (m : Nat) (hm : 1 ≤ m) (hform : ∀ j : Nat, m + 1 ≠ 10 ^ j) :
    digitCount (m + 1) = digitCount m := by
  rw [digitCount_eq_log _ (by omega), digitCount_eq_log _ (by omega)]
  congr 1
  rcases Nat.eq_zero_or_pos (Nat.log 10 m) with h0 | hpos
  · rw [h0]
    have hlt : m < 10 := by
      by_contra hge
      have := Nat.log_pos (b := 10) (by norm_num) (Nat.le_of_not_lt hge)
      omega
    have hne : m + 1 ≠ 10 ^ 1 := hform 1
    apply Nat.log_of_lt
    omega
  · rw [Nat.log_eq_iff (Or.inl (by omega))]
    have hb := (Nat.log_eq_iff (b := 10) (n := m) (m := Nat.log 10 m)
      (Or.inl (by omega))).1 rfl
    have hne := hform (Nat.log 10 m + 1)
    refine ⟨by omega, by omega⟩

/-- C5: for every `int` block count `n` (also `n ≤ 0`) and digit width `w` for
which the computation stays inside the 32-bit `int`, `getLineNumbersWidth` returns
`15 + w * d` with `d` the number of decimal digits of `max(1, n)`; `d ≥ 1`, and
the digit loop is a total function that yields `d` for every `n`. -/
theorem getLineNumbersWidth_spec (w n : Int) (_hn : IsInt32 n)
    (hfit : WidthFits w (digitCount (Max.max 1 n).toNat)) :
    getLineNumbersWidth w n = 15 + w * (digitCount (Max.max 1 n).toNat : Int)
      ∧ 1 ≤ digitCount (Max.max 1 n).toNat
      ∧ digitsLoop (Max.max 1 n) 1 = (digitCount (Max.max 1 n).toNat : Int) := by
  have hd := digitCount_eq_log _ (max_one_toNat_pos n)
  exact ⟨getLineNumbersWidth_eq w n hfit, by omega, digitsLoop_eq_digitCount n⟩

/-- C6: for every `k ≥ 1` the gutter for `10^k` lines is exactly one digit
width wider than the gutter for `10^k - 1` lines, and for every `n ≥ 1` that is
not of the form `10^k - 1` the gutters for `n` and `n + 1` lines are equal; the
line counts are `int` values and the computation of the wider gutter stays
inside the 32-bit `int`. -/
theorem getLineNumbersWidth_power_of_ten (w : Int) :
    (∀ k : Nat, 1 ≤ k → IsInt32 (10 ^ k) → WidthFits w (k + 1) →
        getLineNumbersWidth w (10 ^ k) = getLineNumbersWidth w (10 ^ k - 1) + w)
      ∧ (∀ n : Int, 1 ≤ n → IsInt32 (n + 1) → (∀ j : Nat, n ≠ 10 ^ j - 1) →
          WidthFits w (digitCount (n + 1).toNat) →
        getLineNumbersWidth w n = getLineNumbersWidth w (n + 1)) := by
  constructor
  · intro k hk _ hfit
    have hc : ((10 : Int) ^ k) = (((10 : Nat) ^ k : Nat) : Int) := by push_cast; rfl
    have hp1 : (1 : Nat) ≤ 10 ^ k := Nat.one_le_pow _ _ (by norm_num)
    have hp10 : (10 : Nat) ≤ 10 ^ k := by
      calc (10 : Nat) = 10 ^ 1 := by norm_num
        _ ≤ 10 ^ k := Nat.pow_le_pow_right (by norm_num) hk
    have e1 : (Max.max (1 : Int) (10 ^ k)).toNat = 10 ^ k := by
      rw [hc, max_eq_right (by omega)]; omega
    have e2 : (Max.max (1 : Int) (10 ^ k - 1)).toNat = 10 ^ k - 1 := by
      rw [hc, max_eq_right (by omega)]; omega
    rw [getLineNumbersWidth_eq w _ (by rw [e1, digitCount_pow_ten]; exact hfit),
      getLineNumbersWidth_eq w _ (by
        rw [e2, digitCount_pow_ten_pred k hk]; exact widthFits_of_succ w k hfit),
      e1, e2, digitCount_pow_ten, digitCount_pow_ten_pred k hk]
    push_cast; ring
  · intro n hn _ hform hfit
    have e1 : (Max.max (1 : Int) n).toNat = n.toNat := by rw [max_eq_right hn]
    have e2 : (Max.max (1 : Int) (n + 1)).toNat = n.toNat + 1 := by
      rw [max_eq_right (by omega)]; omega
    have e3 : (n + 1).toNat = n.toNat + 1 := by omega
    have hdc : digitCount (n.toNat + 1) = digitCount n.toNat := by
      apply digitCount_succ_eq _ (by omega)
      intro j heq
      apply hform j
      have hnn : ((n.toNat : Nat) : Int) = n := Int.toNat_of_nonneg (by omega)
      have h3 : ((n.toNat : Nat) : Int) + 1 = (((10 : Nat) ^ j : Nat) : Int) := by
        exact_mod_cast heq
      push_cast at h3
      linarith
    rw [e3, hdc] at hfit
    rw [getLineNumbersWidth_eq w n (by rw [e1]; exact hfit),
      getLineNumbersWidth_eq w (n + 1) (by rw [e2, hdc]; exact hfit), e1, e2, hdc]


theorem widthFits_witness_aux (w : Int) (m n d : Nat) (hm : m = n) (hd : digitCount n = d)
    (h : WidthFits w d) : WidthFits w (digitCount m) := by
  rw [hm, hd]; exact h

theorem getLineNumbersWidth_spec_witness :
    getLineNumbersWidth 7 123 = 15 + 7 * (digitCount (Max.max (1 : Int) 123).toNat : Int)
      ∧ getLineNumbersWidth 7 (-5)
          = 15 + 7 * (digitCount (Max.max (1 : Int) (-5)).toNat : Int) :=
  ⟨(getLineNumbersWidth_spec 7 123 (by decide)
      (widthFits_witness_aux 7 _ 123 3 (by decide) (by norm_num [digitCount]) (by decide))).1,
   (getLineNumbersWidth_spec 7 (-5) (by decide)
      (widthFits_witness_aux 7 _ 1 1 (by decide) (by norm_num [digitCount]) (by decide))).1⟩

theorem getLineNumbersWidth_power_of_ten_witness :
    getLineNumbersWidth 7 (10 ^ 1) = getLineNumbersWidth 7 (10 ^ 1 - 1) + 7
      ∧ getLineNumbersWidth 7 5 = getLineNumbersWidth 7 (5 + 1) :=
  ⟨(getLineNumbersWidth_power_of_ten 7).1 1 (by decide) (by decide) (by decide),
   (getLineNumbersWidth_power_of_ten 7).2 5 (by decide) (by decide) (by
      intro j hj
      have h6 : (10 : Int) ^ j = 6 := by linarith
      cases j with
      | zero => norm_num at h6
      | succ j =>
        have hd : (10 : Int) ∣ 10 ^ (j + 1) := dvd_pow_self 10 (by omega)
        rw [h6] at hd
        omega)
     (widthFits_witness_aux 7 _ 6 1 (by decide) (by norm_num [digitCount]) (by decide))⟩


/-! ### Gutter line counting -/

theorem lineNumbersStep_first_line (b : QTextBlock) (rest : List QTextBlock)
    (st : LineLoopState) :
    (lineNumbersStep b rest st).first_line
      = if b.isVisible = true ∧ st.first_line = 0
        then wrapUnsigned (wrapInt (st.block_number + 1))
        else st.first_line := by
  unfold lineNumbersStep
  by_cases hb : b.isVisible = true <;> by_cases hf : st.first_line = 0 <;> simp [hb, hf]

theorem lineNumbersStep_block_number (b : QTextBlock) (rest : List QTextBlock)
    (st : LineLoopState) :
    (lineNumbersStep b rest st).block_number = wrapInt (st.block_number + 1) := by
  unfold lineNumbersStep; split <;> simp

theorem lineNumbersStep_line_count (b : QTextBlock) (rest : List QTextBlock)
    (st : LineLoopState) (hlc : (st.line_count : Int) + 1 ≤ 4294967295) :
    (lineNumbersStep b rest st).line_count
      = st.line_count + (if b.isVisible = true then 1 else 0) := by
  have hw : wrapUnsigned ((st.line_count : Int) + 1) = st.line_count + 1 := by
    have := wrapUnsigned_of_nonneg ((st.line_count : Int) + 1) (by omega) hlc
    omega
  unfold lineNumbersStep
  split <;> simp [hw]

theorem lineNumbersLoop_cons (fh h : Int) (b : QTextBlock) (rest : List QTextBlock)
    (st : LineLoopState) :
    lineNumbersLoop fh h (b :: rest) st
      = if h < wrapInt (wrapInt ((lineNumbersStep b rest st).line_count : Int) * fh)
        then lineNumbersStep b rest st
        else lineNumbersLoop fh h rest (lineNumbersStep b rest st) := by
  simp only [lineNumbersLoop, gt_iff_lt]

/-- The loop test without wrap-around: when the count so far times the font
height is at most the widget height and `h + fh` is an `int`, neither the
counter nor the product leaves the 32-bit range. -/
theorem lineNumbersLoop_cons_exact (fh h : Int) (hfh : 0 < fh) (hsum : h + fh ≤ 2147483647)
    (b : QTextBlock) (rest : List QTextBlock) (st : LineLoopState)
    (hst : (st.line_count : Int) * fh ≤ h) :
    (lineNumbersStep b rest st).line_count
        = st.line_count + (if b.isVisible = true then 1 else 0)
      ∧ lineNumbersLoop fh h (b :: rest) st
        = if h < ((lineNumbersStep b rest st).line_count : Int) * fh
          then lineNumbersStep b rest st
          else lineNumbersLoop fh h rest (lineNumbersStep b rest st) := by
  have hlc0 : (0 : Int) ≤ st.line_count := Int.ofNat_nonneg _
  have hle : (st.line_count : Int) ≤ (st.line_count : Int) * fh :=
    le_mul_of_one_le_right hlc0 (by omega)
  have hc := lineNumbersStep_line_count b rest st (by omega)
  refine ⟨hc, ?_⟩
  rw [lineNumbersLoop_cons]
  have h1 : ((lineNumbersStep b rest st).line_count : Int) ≤ (st.line_count : Int) + 1 := by
    rw [hc]; split <;> push_cast <;> omega
  have h2 : ((lineNumbersStep b rest st).line_count : Int) * fh
      ≤ ((st.line_count : Int) + 1) * fh := mul_le_mul_of_nonneg_right h1 (le_of_lt hfh)
  have h3 : ((st.line_count : Int) + 1) * fh = (st.line_count : Int) * fh + fh := by ring
  have h4 : 0 ≤ ((lineNumbersStep b rest st).line_count : Int) * fh :=
    mul_nonneg (Int.ofNat_nonneg _) (le_of_lt hfh)
  rw [wrapInt_of_isInt32 ((lineNumbersStep b rest st).line_count : Int)
      ⟨by omega, by omega⟩,
    wrapInt_of_isInt32 _ ⟨by omega, by omega⟩]

theorem lineNumbersLoop_first_line_kept (fh h : Int) (bs : List QTextBlock) :
    ∀ st : LineLoopState, st.first_line ≠ 0 →
      (lineNumbersLoop fh h bs st).first_line = st.first_line := by
  induction bs with
  | nil => intro st _; rfl
  | cons b rest ih =>
    intro st hst
    have hs : (lineNumbersStep b rest st).first_line = st.first_line := by
      rw [lineNumbersStep_first_line, if_neg (by tauto)]
    rw [lineNumbersLoop_cons]
    split
    · exact hs
    · rw [ih _ (by rw [hs]; exact hst), hs]

theorem lineNumbersLoop_first_line (fh h : Int) (hh : 0 ≤ h) (pre : List QTextBlock) :
    ∀ (b : QTextBlock) (rest : List QTextBlock) (st : LineLoopState),
      (∀ x ∈ pre, x.isVisible = false) → b.isVisible = true →
      st.first_line = 0 → st.line_count = 0 → 0 ≤ st.block_number →
      st.block_number + pre.length + 1 ≤ 2147483647 →
      ((lineNumbersLoop fh h (pre ++ b :: rest) st).first_line : Int)
        = st.block_number + pre.length + 1 := by
  induction pre with
  | nil =>
    intro b rest st _ hb hfl hlc hbn hmax
    simp only [List.length_nil, Nat.cast_zero, add_zero] at hmax
    have hu : (wrapUnsigned (wrapInt (st.block_number + 1)) : Int) = st.block_number + 1 := by
      rw [wrapInt_of_isInt32 _ ⟨by omega, by omega⟩]
      exact wrapUnsigned_of_nonneg _ (by omega) (by omega)
    have hs : (lineNumbersStep b rest st).first_line
        = wrapUnsigned (wrapInt (st.block_number + 1)) := by
      rw [lineNumbersStep_first_line, if_pos ⟨hb, hfl⟩]
    rw [List.nil_append, lineNumbersLoop_cons]
    split
    · rw [hs, hu]; simp
    · rw [lineNumbersLoop_first_line_kept _ _ _ _ (by rw [hs]; omega), hs, hu]
      simp
  | cons p pre ih =>
    intro b rest st hpre hb hfl hlc hbn hmax
    simp only [List.length_cons, Nat.cast_add, Nat.cast_one] at hmax
    have hp : p.isVisible = false := hpre p (by simp)
    have hs1 : (lineNumbersStep p (pre ++ b :: rest) st).first_line = 0 := by
      rw [lineNumbersStep_first_line, if_neg (by simp [hp]), hfl]
    have hs2 : (lineNumbersStep p (pre ++ b :: rest) st).line_count = 0 := by
      rw [lineNumbersStep_line_count _ _ _ (by rw [hlc]; decide), hlc]; simp [hp]
    have hs3 : (lineNumbersStep p (pre ++ b :: rest) st).block_number
        = st.block_number + 1 := by
      rw [lineNumbersStep_block_number, wrapInt_of_isInt32 _ ⟨by omega, by omega⟩]
    have hg : ¬ (h < wrapInt (wrapInt
        ((lineNumbersStep p (pre ++ b :: rest) st).line_count : Int) * fh)) := by
      rw [hs2]
      have : wrapInt ((0 : Nat) : Int) = 0 := by decide
      rw [this, zero_mul]
      have : wrapInt 0 = 0 := by decide
      rw [this]; omega
    rw [List.cons_append, lineNumbersLoop_cons, if_neg hg]
    rw [ih b rest _ (fun x hx => hpre x (by simp [hx])) hb hs1 hs2 (by rw [hs3]; omega)
      (by rw [hs3]; omega), hs3]
    simp only [List.length_cons]; push_cast; ring

theorem lineNumbersLoop_line_count (fh h : Int) (hfh : 0 < fh) (hsum : h + fh ≤ 2147483647)
    (bs : List QTextBlock) :
    ∀ st : LineLoopState, (st.line_count : Int) * fh ≤ h →
      ∃ k, k ≤ bs.length
        ∧ (lineNumbersLoop fh h bs st).line_count
            = st.line_count + (bs.take k).countP (fun b => b.isVisible)
        ∧ (k < bs.length → h < ((lineNumbersLoop fh h bs st).line_count : Int) * fh)
        ∧ (∀ j, j < k →
            ((st.line_count + (bs.take j).countP (fun b => b.isVisible) : Nat) : Int) * fh ≤ h)
        ∧ (((lineNumbersLoop fh h bs st).line_count : Int) - 1) * fh ≤ h := by
  induction bs with
  | nil =>
    intro st hst
    refine ⟨0, le_refl _, by simp [lineNumbersLoop], by simp, by simp, ?_⟩
    simp only [lineNumbersLoop]
    nlinarith
  | cons b rest ih =>
    intro st hst
    obtain ⟨hc, hcons0⟩ := lineNumbersLoop_cons_exact fh h hfh hsum b rest st hst
    have hcp : ([b].countP (fun b => b.isVisible)) = (if b.isVisible = true then 1 else 0) := by
      by_cases hb : b.isVisible = true <;> simp [hb]
    rw [hcons0]
    by_cases hbr : h < ((lineNumbersStep b rest st).line_count : Int) * fh
    · rw [if_pos hbr]
      refine ⟨1, by simp, ?_, fun _ => hbr, ?_, ?_⟩
      · rw [hc, List.take_succ_cons, List.take_zero, hcp]
      · intro j hj
        have : j = 0 := by omega
        subst this
        simpa using hst
      · have h1 : ((lineNumbersStep b rest st).line_count : Int) - 1 ≤ st.line_count := by
          rw [hc]; split <;> push_cast <;> omega
        calc (((lineNumbersStep b rest st).line_count : Int) - 1) * fh
            ≤ (st.line_count : Int) * fh := mul_le_mul_of_nonneg_right h1 (le_of_lt hfh)
          _ ≤ h := hst
    · rw [if_neg hbr]
      obtain ⟨k, hk, hlc, hlt, hall, hlast⟩ := ih (lineNumbersStep b rest st) (not_lt.mp hbr)
      have hcons : ∀ n, ((b :: rest).take (n + 1)).countP (fun b => b.isVisible)
          = (if b.isVisible = true then 1 else 0) + (rest.take n).countP (fun b => b.isVisible) := by
        intro n
        rw [List.take_succ_cons, List.countP_cons]
        split <;> omega
      refine ⟨k + 1, by simpa using hk, ?_, ?_, ?_, hlast⟩
      · rw [hlc, hc, hcons]; omega
      · intro hk1
        exact hlt (by simpa using hk1)
      · intro j hj
        cases j with
        | zero => simpa using hst
        | succ j =>
          have := hall j (by omega)
          rw [hc] at this
          rw [hcons]
          have e : st.line_count + ((if b.isVisible = true then 1 else 0)
              + (rest.take j).countP (fun b => b.isVisible))
              = st.line_count + (if b.isVisible = true then 1 else 0)
                + (rest.take j).countP (fun b => b.isVisible) := by omega
          rw [e]; exact this

/-- C10: for block numbers, a font height `fh > 0` and a widget height `h ≥ 0`
inside the 32-bit `int` (`block_number + blocks.length` and `h + fh` do not
exceed 2147483647), the line-counting loop of `updateLineNumbers` is total on
every finite list of blocks and hands the gutter `first_line` = number of the
first visible block + 1 and a `line_count` that counts the visible blocks of a
prefix of the list, stops at the first prefix whose count times the font height
exceeds the widget height, satisfies `(line_count - 1) * fh ≤ h` and is at most
the number of blocks. -/
theorem updateLineNumbers_line_count (blocks : List QTextBlock) (block_number top fh h : Int)
    (hbn : 0 ≤ block_number) (hbl : block_number + blocks.length ≤ 2147483647)
    (hfh : 0 < fh) (hh : 0 ≤ h) (hsum : h + fh ≤ 2147483647) :
    ∃ first_line line_count,
      updateLineNumbers true blocks block_number top fh h = some (first_line, line_count, top)
      ∧ (∀ pre b rest, blocks = pre ++ b :: rest → (∀ x ∈ pre, x.isVisible = false) →
          b.isVisible = true → (first_line : Int) = block_number + pre.length + 1)
      ∧ (∃ k, k ≤ blocks.length
          ∧ line_count = (blocks.take k).countP (fun b => b.isVisible)
          ∧ (k < blocks.length → h < (line_count : Int) * fh)
          ∧ (∀ j, j < k → (((blocks.take j).countP (fun b => b.isVisible) : Nat) : Int) * fh ≤ h))
      ∧ ((line_count : Int) - 1) * fh ≤ h
      ∧ line_count ≤ blocks.length := by
  obtain ⟨st0, hst0⟩ : ∃ st0 : LineLoopState, st0 =
      { block_number := block_number, top := top,
        bottom := wrapInt (top + blockHeight blocks),
        first_line := 0, line_count := 0 } := ⟨_, rfl⟩
  have hu : updateLineNumbers true blocks block_number top fh h
      = some ((lineNumbersLoop fh h blocks st0).first_line,
          (lineNumbersLoop fh h blocks st0).line_count, top) := by
    simp [updateLineNumbers, hst0]
  have h0 : st0.line_count = 0 := by rw [hst0]
  have hf0 : st0.first_line = 0 := by rw [hst0]
  have hb0 : st0.block_number = block_number := by rw [hst0]
  obtain ⟨k, hk, hlc, hlt, hall, hlast⟩ :=
    lineNumbersLoop_line_count fh h hfh hsum blocks st0 (by rw [h0]; simpa using hh)
  rw [h0, Nat.zero_add] at hlc
  refine ⟨_, _, hu, ?_, ⟨k, hk, hlc, hlt, ?_⟩, hlast, ?_⟩
  · intro pre b rest hbl2 hpre hb
    subst hbl2
    rw [lineNumbersLoop_first_line fh h hh pre b rest st0 hpre hb hf0 h0
      (by rw [hb0]; exact hbn) (by
        rw [hb0]
        simp only [List.length_append, List.length_cons, Nat.cast_add, Nat.cast_one] at hbl
        omega), hb0]
  · intro j hj
    have := hall j hj
    rwa [h0, Nat.zero_add] at this
  · rw [hlc]
    calc (blocks.take k).countP (fun b => b.isVisible) ≤ (blocks.take k).length :=
          List.countP_le_length _
      _ ≤ blocks.length := by rw [List.length_take]; omega

theorem updateLineNumbers_line_count_witness :
    ∃ first_line line_count,
      updateLineNumbers true
          [⟨false, 10⟩, ⟨true, 10⟩, ⟨true, 10⟩, ⟨false, 10⟩, ⟨true, 10⟩, ⟨true, 10⟩] 4 0 10 25
        = some (first_line, line_count, 0)
      ∧ (first_line : Int) = 4 + 1 + 1
      ∧ ((line_count : Int) - 1) * 10 ≤ 25
      ∧ line_count ≤ 6 := by
  obtain ⟨fl, lc, h1, h2, _, h4, h5⟩ := updateLineNumbers_line_count
    [⟨false, 10⟩, ⟨true, 10⟩, ⟨true, 10⟩, ⟨false, 10⟩, ⟨true, 10⟩, ⟨true, 10⟩] 4 0 10 25
    (by decide) (by decide) (by decide) (by decide) (by decide)
  refine ⟨fl, lc, h1, ?_, h4, h5⟩
  have := h2 [⟨false, 10⟩] ⟨true, 10⟩ [⟨true, 10⟩, ⟨false, 10⟩, ⟨true, 10⟩, ⟨true, 10⟩] rfl
    (by decide) rfl
  simpa using this

/-! ### Case conversion -/

theorem length_le_convertCase (f : Char → List Char) (hne : ∀ c, f c ≠ []) (s : List Char) :
    s.length ≤ (convertCase f s).length := by
  induction s with
  | nil => simp [convertCase]
  | cons c cs ih =>
    have h1 : 1 ≤ (f c).length := by
      cases hfc : f c with
      | nil => exact absurd hfc (hne c)
      | cons a as => simp
    simp only [convertCase, List.flatMap_cons, List.length_append, List.length_cons] at ih ⊢
    omega

theorem convertCase_of_fixed (f : Char → List Char) (l : List Char)
    (h : ∀ d ∈ l, f d = [d]) : convertCase f l = l := by
  induction l with
  | nil => simp [convertCase]
  | cons c cs ih =>
    have hc : f c = [c] := h c (by simp)
    have hcs : convertCase f cs = cs := ih (fun d hd => h d (by simp [hd]))
    simp only [convertCase, List.flatMap_cons] at hcs ⊢
    rw [hc, hcs]; rfl

theorem convertCase_take_fixed (f : Char → List Char)
    (hfix : ∀ c d, d ∈ f c → f d = [d]) (s : List Char) (k : Nat) :
    convertCase f ((convertCase f s).take k) = (convertCase f s).take k := by
  apply convertCase_of_fixed
  intro d hd
  have hd2 : d ∈ convertCase f s := List.mem_of_mem_take hd
  simp only [convertCase, List.mem_flatMap] at hd2
  obtain ⟨c, _, hc⟩ := hd2
  exact hfix c d hc

theorem setPosition_text (c : TextCursor) (pos : Int) (m : MoveMode) :
    (setPosition c pos m).text = c.text := by
  unfold setPosition
  split
  · rfl
  · cases m <;> rfl

theorem setPosition_moveAnchor (c : TextCursor) (p : Nat) (hp : p ≤ c.text.length) :
    setPosition c (p : Int) MoveMode.MoveAnchor = { c with anchor := p, position := p } := by
  unfold setPosition
  rw [if_neg (by omega)]
  simp

theorem setPosition_keepAnchor (c : TextCursor) (p : Nat) (hp : p ≤ c.text.length) :
    setPosition c (p : Int) MoveMode.KeepAnchor = { c with position := p } := by
  unfold setPosition
  rw [if_neg (by omega)]
  simp

theorem setPosition_refused (c : TextCursor) (pos : Int) (m : MoveMode)
    (h : pos < 0 ∨ (c.text.length : Int) < pos) : setPosition c pos m = c := by
  unfold setPosition
  rw [if_pos (by omega)]

theorem selectedText_length (c : TextCursor) (hv : c.Valid) :
    (selectedText c).length = selectionEnd c - selectionStart c := by
  obtain ⟨ha, hp⟩ := hv
  simp only [selectedText, selectionStart, selectionEnd, List.length_take, List.length_drop]
  omega

theorem take_drop_self (t : List Char) (a b : Nat) (hab : a ≤ b) :
    t.take a ++ ((t.drop a).take (b - a) ++ t.drop b) = t := by
  have h : t.drop b = (t.drop a).drop (b - a) := by
    rw [List.drop_drop]; congr 1; omega
  rw [h, List.take_append_drop, List.take_append_drop]

theorem take_drop_splice (pre mid post : List Char) (n k : Nat) (hn : pre.length = n)
    (hk : k ≤ mid.length) : ((pre ++ (mid ++ post)).drop n).take k = mid.take k := by
  rw [List.drop_left' hn, List.take_append_of_le_length hk]

/-- One application of the case conversion with the mapping `f`, in closed form. -/
theorem changeSelectionCase_eq (up lo : Char → List Char) (lower : Bool) (ed : TextCursor)
    (hv : ed.Valid) (hsel : hasSelection ed = true)
    (hne : ∀ c, (if lower then lo else up) c ≠ []) :
    changeSelectionCase up lo lower ed =
      { text := ed.text.take (selectionStart ed)
          ++ convertCase (if lower then lo else up) (selectedText ed)
          ++ ed.text.drop (selectionEnd ed)
        anchor := selectionStart ed
        position := selectionEnd ed } := by
  have hlen := selectedText_length ed hv
  obtain ⟨ha, hp⟩ := hv
  have hge := length_le_convertCase _ hne (selectedText ed)
  have hse : selectionStart ed ≤ selectionEnd ed := by
    simp only [selectionStart, selectionEnd]; omega
  have hel : selectionEnd ed ≤ ed.text.length := by
    simp only [selectionEnd]; omega
  have key : ∀ t : List Char, (selectedText ed).length ≤ t.length →
      setPosition (setPosition (insertText ed t) (selectionStart ed) MoveMode.MoveAnchor)
        (selectionEnd ed) MoveMode.KeepAnchor =
      { text := ed.text.take (selectionStart ed) ++ t ++ ed.text.drop (selectionEnd ed)
        anchor := selectionStart ed
        position := selectionEnd ed } := by
    intro t ht
    have hl : (insertText ed t).text.length
        = selectionStart ed + t.length + (ed.text.length - selectionEnd ed) := by
      simp only [insertText, List.length_append, List.length_take, List.length_drop]
      omega
    rw [setPosition_moveAnchor _ _ (by omega)]
    rw [setPosition_keepAnchor _ _ (by simp only []; omega)]
    simp [insertText]
  unfold changeSelectionCase
  rw [if_pos hsel]
  cases lower
  · simp only [Bool.not_false, if_true, Bool.false_eq_true, if_false] at hge ⊢
    exact key _ hge
  · simp only [Bool.not_true, if_true, Bool.false_eq_true, if_false] at hge ⊢
    exact key _ hge

/-- C9: with case mappings that give no empty result and whose results are
already in the target case, applying `changeSelectionCase` twice with the same
direction gives the same text and selection as applying it once; one
application rewrites only the selected characters, leaves the selection
boundaries where they were, and does nothing on an empty selection. -/
theorem changeSelectionCase_idempotent (up lo : Char → List Char) (lower : Bool)
    (ed : TextCursor) (hv : ed.Valid)
    (hne : ∀ c, up c ≠ [] ∧ lo c ≠ [])
    (hfix : ∀ c d, (d ∈ up c → up d = [d]) ∧ (d ∈ lo c → lo d = [d])) :
    changeSelectionCase up lo lower (changeSelectionCase up lo lower ed)
        = changeSelectionCase up lo lower ed
      ∧ (changeSelectionCase up lo lower ed).text
          = ed.text.take (selectionStart ed)
            ++ convertCase (if lower then lo else up) (selectedText ed)
            ++ ed.text.drop (selectionEnd ed)
      ∧ selectionStart (changeSelectionCase up lo lower ed) = selectionStart ed
      ∧ selectionEnd (changeSelectionCase up lo lower ed) = selectionEnd ed
      ∧ (hasSelection ed = false → changeSelectionCase up lo lower ed = ed) := by
  have hne1 : ∀ c, (if lower then lo else up) c ≠ [] := by
    intro c; cases lower
    · simpa using (hne c).1
    · simpa using (hne c).2
  have hfix1 : ∀ c d, d ∈ (if lower then lo else up) c → (if lower then lo else up) d = [d] := by
    intro c d; cases lower
    · simpa using (hfix c d).1
    · simpa using (hfix c d).2
  by_cases hsel : hasSelection ed = true
  · have h1 := changeSelectionCase_eq up lo lower ed hv hsel hne1
    have hlen := selectedText_length ed hv
    have hge := length_le_convertCase _ hne1 (selectedText ed)
    have hv' := hv
    obtain ⟨ha, hp⟩ := hv
    have hse : selectionStart ed < selectionEnd ed := by
      simp only [hasSelection, bne_iff_ne, ne_eq] at hsel
      simp only [selectionStart, selectionEnd]; omega
    have hel : selectionEnd ed ≤ ed.text.length := by
      simp only [selectionEnd]; omega
    have hts : (ed.text.take (selectionStart ed)).length = selectionStart ed := by
      rw [List.length_take]; omega
    obtain ⟨R, hR⟩ : ∃ R : TextCursor, R = changeSelectionCase up lo lower ed := ⟨_, rfl⟩
    rw [← hR]
    rw [h1] at hR
    have hRt : R.text = ed.text.take (selectionStart ed)
          ++ (convertCase (if lower then lo else up) (selectedText ed)
          ++ ed.text.drop (selectionEnd ed)) := by rw [hR]; simp
    have hRa : R.anchor = selectionStart ed := by rw [hR]
    have hRp : R.position = selectionEnd ed := by rw [hR]
    have hRs : selectionStart R = selectionStart ed := by
      simp only [selectionStart, hRa, hRp]
      simp only [selectionStart, selectionEnd] at hse ⊢; omega
    have hRe : selectionEnd R = selectionEnd ed := by
      simp only [selectionEnd, hRa, hRp]
      simp only [selectionStart, selectionEnd] at hse ⊢; omega
    refine ⟨?_, by rw [hR], hRs, hRe, ?_⟩
    · have hRv : R.Valid := by
        simp only [TextCursor.Valid, hRt, hRa, hRp, List.length_append, List.length_take,
          List.length_drop]
        omega
      have hRsel : hasSelection R = true := by
        simp only [hasSelection, hRa, hRp, bne_iff_ne, ne_eq]; omega
      rw [changeSelectionCase_eq up lo lower R hRv hRsel hne1]
      have hsR : selectedText R
          = (convertCase (if lower then lo else up) (selectedText ed)).take
              (selectionEnd ed - selectionStart ed) := by
        unfold selectedText
        rw [hRs, hRe, hRt]
        exact take_drop_splice _ _ _ _ _ hts (by rw [← hlen]; exact hge)
      rw [hsR, convertCase_take_fixed _ hfix1, ← hsR]
      unfold selectedText
      rw [List.append_assoc, take_drop_self _ _ _ (by omega)]
      cases R with
      | mk t a p =>
        simp only [selectionStart, selectionEnd, TextCursor.mk.injEq, true_and] at hRa hRp hse ⊢
        omega
    · intro hno; rw [hno] at hsel; exact absurd hsel (by simp)
  · have hno : hasSelection ed = false := by simpa using hsel
    have h0 : changeSelectionCase up lo lower ed = ed := by
      unfold changeSelectionCase; rw [if_neg hsel]
    refine ⟨by rw [h0, h0], ?_, by rw [h0], by rw [h0], fun _ => h0⟩
    rw [h0]
    have heq : ed.anchor = ed.position := by
      simpa [hasSelection] using hno
    simp only [selectedText, selectionStart, selectionEnd, heq, min_self, max_self,
      Nat.sub_self, List.take_zero, convertCase, List.flatMap_nil, List.append_nil,
      List.take_append_drop]

theorem sampleToUpper_ne_nil (c : Char) : sampleToUpper c ≠ [] := by
  unfold sampleToUpper; split_ifs <;> simp

theorem sampleToLower_ne_nil (c : Char) : sampleToLower c ≠ [] := by
  unfold sampleToLower; split_ifs <;> simp

theorem sampleToUpper_fixed (c d : Char) (h : d ∈ sampleToUpper c) : sampleToUpper d = [d] := by
  unfold sampleToUpper at h
  split_ifs at h with h1 h2
  · have : d = 'A' := by simpa using h
    subst this; decide
  · have : d = 'S' := by simpa using h
    subst this; decide
  · have : d = c := by simpa using h
    subst this
    simp [sampleToUpper, h1, h2]

theorem sampleToLower_fixed (c d : Char) (h : d ∈ sampleToLower c) : sampleToLower d = [d] := by
  unfold sampleToLower at h
  split_ifs at h with h1
  · have : d = 'a' := by simpa using h
    subst this; decide
  · have : d = c := by simpa using h
    subst this
    simp [sampleToLower, h1]

theorem changeSelectionCase_idempotent_witness :
    changeSelectionCase sampleToUpper sampleToLower false
        (changeSelectionCase sampleToUpper sampleToLower false (mkCursor "xaßb" 3 1))
      = changeSelectionCase sampleToUpper sampleToLower false (mkCursor "xaßb" 3 1)
    ∧ (changeSelectionCase sampleToUpper sampleToLower false (mkCursor "xaßb" 3 1)).text
      = "xASSb".toList
    ∧ selectionStart (changeSelectionCase sampleToUpper sampleToLower false (mkCursor "xaßb" 3 1))
      = 1
    ∧ selectionEnd (changeSelectionCase sampleToUpper sampleToLower false (mkCursor "xaßb" 3 1))
      = 3 := by
  obtain ⟨h1, _, h3, h4, _⟩ := changeSelectionCase_idempotent sampleToUpper sampleToLower false
    (mkCursor "xaßb" 3 1) (by decide)
    (fun c => ⟨sampleToUpper_ne_nil c, sampleToLower_ne_nil c⟩)
    (fun c d => ⟨sampleToUpper_fixed c d, sampleToLower_fixed c d⟩)
  exact ⟨h1, by decide, h3, h4⟩

/-! ### Tab width policy -/

/-- C8: for `int` values `v` and `s`, `setTabWidth(v)` stores `max(0, v)` (a
negative value becomes 0, none is rejected) and `getTabWidth` then returns 80
when the stored width is 0 and, when the product is an `int`, the stored width
times the space width otherwise. -/
theorem setTabWidth_getTabWidth (v s : Int) (_hv : IsInt32 v) (_hs : IsInt32 s) :
    setTabWidth v = Max.max 0 v
      ∧ (v < 0 → setTabWidth v = 0)
      ∧ (setTabWidth v = 0 → getTabWidth (setTabWidth v) s = 80)
      ∧ (IsInt32 (Max.max 0 v * s) →
          getTabWidth (setTabWidth v) s
            = (if Max.max 0 v = 0 then 80 else Max.max 0 v * s)) := by
  have h : setTabWidth v = Max.max 0 v := by
    unfold setTabWidth
    split
    · rw [max_eq_left (by omega)]
    · rw [max_eq_right (by omega)]
  refine ⟨h, ?_, ?_, ?_⟩
  · intro hneg; rw [h, max_eq_left (by omega)]
  · intro h0; rw [h0]; rfl
  · intro hprod
    rw [h]
    unfold getTabWidth
    split
    · rfl
    · rw [wrapInt_of_isInt32 _ hprod]

theorem setTabWidth_getTabWidth_witness :
    setTabWidth (-3) = Max.max 0 (-3)
      ∧ getTabWidth (setTabWidth (-3)) 8 = 80
      ∧ getTabWidth (setTabWidth 4) 8 = 32 := by
  obtain ⟨h1, _, h3, _⟩ := setTabWidth_getTabWidth (-3) 8 (by decide) (by decide)
  obtain ⟨_, _, _, h4⟩ := setTabWidth_getTabWidth 4 8 (by decide) (by decide)
  exact ⟨h1, h3 (by decide), by rw [h4 (by decide)]; decide⟩

/-- C7 as stated fails: with a space 8 pixels wide the tab stop for the
configured width 0 is 80 pixels and the one for the width 1 is 8 pixels. -/
theorem getTabWidth_not_monotone_at_zero :
    (0 : Int) ≤ 0 ∧ (0 : Int) ≤ 1 ∧ (0 : Int) ≤ 8
      ∧ ¬ (getTabWidth (setTabWidth 0) 8 ≤ getTabWidth (setTabWidth 1) 8) := by
  decide

/-- C7 amended: for configured widths `0 ≤ a ≤ b` and a space width `s ≥ 0`
that are `int` values with `b * s` at most 2147483647, the tab stop for `a` is
at most the one for `b` exactly when `a ≥ 1`, or `b = 0`, or `b * s ≥ 80`. -/
theorem getTabWidth_monotone_iff (a b s : Int) (ha : 0 ≤ a) (hab : a ≤ b) (hs : 0 ≤ s)
    (hb : IsInt32 b) (_hsr : IsInt32 s) (hprod : b * s ≤ 2147483647) :
    getTabWidth (setTabWidth a) s ≤ getTabWidth (setTabWidth b) s
      ↔ (0 < a ∨ b = 0 ∨ 80 ≤ b * s) := by
  have ea : setTabWidth a = a := by unfold setTabWidth; rw [if_neg (by omega)]
  have eb : setTabWidth b = b := by unfold setTabWidth; rw [if_neg (by omega)]
  have hbs : 0 ≤ b * s := mul_nonneg (by omega) hs
  have has : 0 ≤ a * s := mul_nonneg ha hs
  have hle : a * s ≤ b * s := mul_le_mul_of_nonneg_right hab hs
  have wa : wrapInt (a * s) = a * s := wrapInt_of_isInt32 _ ⟨by omega, by omega⟩
  have wb : wrapInt (b * s) = b * s := wrapInt_of_isInt32 _ ⟨by omega, by omega⟩
  rw [ea, eb]
  unfold getTabWidth
  rw [wa, wb]
  by_cases h0 : a = 0
  · subst h0
    by_cases hb0 : b = 0
    · subst hb0; simp
    · simp [hb0]
  · have hb0 : b ≠ 0 := by omega
    have hpos : 0 < a := by omega
    simp only [h0, hb0, if_false, hpos, true_or, iff_true]
    exact hle

theorem getTabWidth_monotone_iff_witness :
    getTabWidth (setTabWidth 1) 8 ≤ getTabWidth (setTabWidth 2) 8
      ∧ (getTabWidth (setTabWidth 0) 8 ≤ getTabWidth (setTabWidth 10) 8) :=
  ⟨(getTabWidth_monotone_iff 1 2 8 (by decide) (by decide) (by decide) (by decide) (by decide)
      (by decide)).2 (Or.inl (by decide)),
   (getTabWidth_monotone_iff 0 10 8 (by decide) (by decide) (by decide) (by decide) (by decide)
      (by decide)).2 (Or.inr (Or.inr (by decide)))⟩

/-! ### The computations at the edge of the 32-bit range -/

theorem getTabWidth_wraps :
    getTabWidth (setTabWidth 2147483647) 8 = -8
      ∧ getTabWidth (setTabWidth 268435456) 8 = -2147483648 := by
  decide

theorem lineNumbersLoop_wraps :
    updateLineNumbers true [⟨true, 10⟩, ⟨true, 10⟩, ⟨true, 10⟩] 0 0 2147483647 2147483647
      = some (1, 3, 0) := by
  decide

theorem getLineNumbersWidth_wraps :
    getLineNumbersWidth 300000000 1000000000 = -1294967281 := by
  have hd : digitCount (Max.max (1 : Int) 1000000000).toNat = 10 := by
    rw [show (Max.max (1 : Int) 1000000000).toNat = 1000000000 by decide]
    norm_num [digitCount]
  unfold getLineNumbersWidth
  simp only []
  rw [digitsLoop_eq_digitCount, hd]
  decide

/-! ### Indent / outdent away from the first and the last line -/

theorem identLines_eq_spec (ident_right : Bool) (ls : List (List Char)) :
    ∀ count : Nat, identLines ident_right ls count
      = (ls.map (identLineSpec ident_right),
         count + ls.countP (lineChangesSpec ident_right)) := by
  induction ls with
  | nil => intro count; simp [identLines]
  | cons l ls ih =>
    intro count
    cases ident_right
    · cases l with
      | nil =>
        simp [identLines, ih, identLineSpec, outdentLineSpec, lineChangesSpec]
      | cons c cs =>
        by_cases hc : c = '\t'
        · subst hc
          simp [identLines, ih, identLineSpec, outdentLineSpec, lineChangesSpec]
          omega
        · have h2 : outdentLineSpec (c :: cs) = c :: cs := by
            unfold outdentLineSpec
            split
            · rename_i heq; simp at heq; exact absurd heq.1 hc
            · rfl
          simp [identLines, ih, identLineSpec, h2, lineChangesSpec, hc]
    · cases l with
      | nil => simp [identLines, ih, identLineSpec, indentLineSpec, lineChangesSpec]
      | cons c cs =>
        simp [identLines, ih, identLineSpec, indentLineSpec, lineChangesSpec]
        omega

theorem join_split (sep : Char) (s : List Char) : join sep (split sep s) = s := by
  induction s with
  | nil => simp [split, join]
  | cons c cs ih =>
    by_cases hc : c = sep
    · subst hc
      have hne : split c cs ≠ [] := by
        cases cs with
        | nil => simp [split]
        | cons d ds =>
          simp only [split]
          split
          · simp
          · split <;> simp
      simp only [split, if_true]
      cases hs : split c cs with
      | nil => exact absurd hs hne
      | cons l ls =>
        rw [hs] at ih
        simp only [join, List.nil_append, ih]
    · simp only [split, if_neg hc]
      cases hs : split sep cs with
      | nil =>
        rw [hs] at ih
        simp only [join] at ih ⊢
        rw [← ih]
      | cons l ls =>
        rw [hs] at ih
        cases ls with
        | nil => simp only [join] at ih ⊢; rw [ih]
        | cons l2 ls2 => simp only [join, List.cons_append] at ih ⊢; rw [ih]


theorem split_ne_nil (sep : Char) (s : List Char) : split sep s ≠ [] := by
  cases s with
  | nil => simp [split]
  | cons d ds =>
    simp only [split]
    split
    · simp
    · split <;> simp

theorem not_mem_of_mem_split (sep : Char) (s : List Char) :
    ∀ l ∈ split sep s, sep ∉ l := by
  induction s with
  | nil => intro l hl; simp [split] at hl; subst hl; simp
  | cons c cs ih =>
    intro l hl
    by_cases hc : c = sep
    · subst hc
      simp only [split, if_true, List.mem_cons] at hl
      rcases hl with rfl | hl
      · simp
      · exact ih l hl
    · simp only [split, if_neg hc] at hl
      cases hs : split sep cs with
      | nil => exact absurd hs (split_ne_nil sep cs)
      | cons l1 ls =>
        rw [hs] at hl ih
        simp only [List.mem_cons] at hl
        rcases hl with rfl | hl
        · intro hmem
          simp only [List.mem_cons] at hmem
          rcases hmem with h | h
          · exact hc h.symm
          · exact ih l1 (by simp) h
        · exact ih l (by simp [hl])

theorem split_cons_ne (sep c : Char) (cs : List Char) (hc : c ≠ sep) :
    split sep (c :: cs)
      = match split sep cs with
        | [] => [[c]]
        | l :: ls => (c :: l) :: ls := by
  simp only [split, if_neg hc]

theorem split_cons_sep (sep : Char) (s : List Char) :
    split sep (sep :: s) = [] :: split sep s := by
  simp [split]

theorem split_append_sep (sep : Char) (l : List Char) (hl : sep ∉ l) (s : List Char) :
    split sep (l ++ sep :: s) = l :: split sep s := by
  induction l with
  | nil => simp [split]
  | cons c cs ih =>
    have hc : c ≠ sep := by intro h; apply hl; simp [h]
    have hcs : sep ∉ cs := by intro h; apply hl; simp [h]
    rw [List.cons_append, split_cons_ne sep c _ hc, ih hcs]

theorem split_of_not_mem (sep : Char) (l : List Char) (hl : sep ∉ l) : split sep l = [l] := by
  induction l with
  | nil => simp [split]
  | cons c cs ih =>
    have hc : c ≠ sep := by intro h; apply hl; simp [h]
    have hcs : sep ∉ cs := by intro h; apply hl; simp [h]
    rw [split_cons_ne sep c _ hc, ih hcs]

theorem split_join (sep : Char) (ls : List (List Char)) (hne : ls ≠ [])
    (hl : ∀ l ∈ ls, sep ∉ l) : split sep (join sep ls) = ls := by
  induction ls with
  | nil => exact absurd rfl hne
  | cons l ls ih =>
    cases ls with
    | nil => simp only [join]; exact split_of_not_mem sep l (hl l (by simp))
    | cons l2 ls2 =>
      simp only [join]
      rw [split_append_sep sep l (hl l (by simp))]
      have := ih (by simp) (fun x hx => hl x (by simp [hx]))
      simp only [join] at this
      rw [this]

theorem lastIndexOfAux_spec (s : List Char) (ch : Char) (n : Nat) :
    (lastIndexOfAux s ch n = -1 ∧ ∀ i, i < n → s[i]? ≠ some ch)
      ∨ ∃ r : Nat, lastIndexOfAux s ch n = (r : Int) ∧ r < n ∧ s[r]? = some ch
          ∧ ∀ i, r < i → i < n → s[i]? ≠ some ch := by
  induction n with
  | zero => left; simp [lastIndexOfAux]
  | succ n ih =>
    simp only [lastIndexOfAux, List.get?_eq_getElem?]
    by_cases h : s[n]? = some ch
    · right
      refine ⟨n, by rw [if_pos h], by omega, h, ?_⟩
      intro i h1 h2; omega
    · rw [if_neg h]
      rcases ih with ⟨h1, h2⟩ | ⟨r, h1, h2, h3, h4⟩
      · left
        refine ⟨h1, ?_⟩
        intro i hi
        rcases Nat.lt_succ_iff_lt_or_eq.mp hi with h5 | h5
        · exact h2 i h5
        · subst h5; exact h
      · right
        refine ⟨r, h1, by omega, h3, ?_⟩
        intro i hi1 hi2
        rcases Nat.lt_succ_iff_lt_or_eq.mp hi2 with h5 | h5
        · exact h4 i hi1 h5
        · subst h5; exact h

theorem indexOfAux_spec (ch : Char) (l : List Char) :
    ∀ i : Nat, (indexOfAux ch l i = -1 ∧ ∀ j : Nat, l[j]? ≠ some ch)
      ∨ ∃ k : Nat, indexOfAux ch l i = ((i + k : Nat) : Int) ∧ k < l.length ∧ l[k]? = some ch
          ∧ ∀ j, j < k → l[j]? ≠ some ch := by
  induction l with
  | nil => intro i; left; simp [indexOfAux]
  | cons c cs ih =>
    intro i
    by_cases hc : c = ch
    · right
      refine ⟨0, by simp [indexOfAux, hc], by simp, by simp [hc], by simp⟩
    · simp only [indexOfAux, if_neg hc]
      rcases ih (i + 1) with ⟨h1, h2⟩ | ⟨k, h1, h2, h3, h4⟩
      · left
        refine ⟨h1, ?_⟩
        intro j
        cases j with
        | zero => simpa using hc
        | succ j => simpa using h2 j
      · right
        refine ⟨k + 1, by rw [h1]; congr 1; omega, by simpa using h2, by simpa using h3, ?_⟩
        intro j hj
        cases j with
        | zero => simpa using hc
        | succ j => simpa using h4 j (by omega)

theorem lastIndexOf_nat (s : List Char) (ch : Char) (p : Nat) :
    lastIndexOf s ch (p : Int)
      = if s.length ≤ p then -1 else lastIndexOfAux s ch (p + 1) := by
  unfold lastIndexOf
  have h0 : ¬ ((p : Int) < 0) := by omega
  simp only [h0, if_false, false_or, Int.toNat_ofNat, Nat.cast_le]

theorem indexOf_nat (s : List Char) (ch : Char) (p : Nat) :
    indexOf s ch (p : Int)
      = if p < s.length then indexOfAux ch (s.drop p) p else -1 := by
  unfold indexOf
  have h0 : ¬ ((p : Int) < 0) := by omega
  simp only [h0, if_false, Int.toNat_ofNat, Nat.cast_lt]

/-- What a non-negative result of `lastIndexOf` from a position inside the
string says. -/
theorem lastIndexOf_eq_nat (s : List Char) (ch : Char) (p a : Nat)
    (h : lastIndexOf s ch (p : Int) = (a : Int)) :
    p < s.length ∧ a ≤ p ∧ s[a]? = some ch ∧ ∀ i, a < i → i ≤ p → s[i]? ≠ some ch := by
  rw [lastIndexOf_nat] at h
  by_cases hp : s.length ≤ p
  · rw [if_pos hp] at h; omega
  · rw [if_neg hp] at h
    rcases lastIndexOfAux_spec s ch (p + 1) with ⟨h1, _⟩ | ⟨r, h1, h2, h3, h4⟩
    · rw [h1] at h; omega
    · rw [h1] at h
      have : r = a := by omega
      subst this
      exact ⟨by omega, by omega, h3, fun i hi1 hi2 => h4 i hi1 (by omega)⟩

/-- What a non-negative result of `indexOf` says. -/
theorem indexOf_eq_nat (s : List Char) (ch : Char) (p b : Nat)
    (h : indexOf s ch (p : Int) = (b : Int)) :
    p ≤ b ∧ b < s.length ∧ s[b]? = some ch ∧ ∀ i, p ≤ i → i < b → s[i]? ≠ some ch := by
  rw [indexOf_nat] at h
  by_cases hp : p < s.length
  · rw [if_pos hp] at h
    rcases indexOfAux_spec ch (s.drop p) p with ⟨h1, _⟩ | ⟨k, h1, h2, h3, h4⟩
    · rw [h1] at h; omega
    · rw [h1] at h
      have hb : b = p + k := by omega
      subst hb
      rw [List.length_drop] at h2
      rw [List.getElem?_drop] at h3
      refine ⟨by omega, by omega, h3, ?_⟩
      intro i hi1 hi2
      have := h4 (i - p) (by omega)
      rw [List.getElem?_drop] at this
      rwa [show p + (i - p) = i by omega] at this
  · rw [if_neg hp] at h; omega

theorem lastIndexOf_at (s : List Char) (ch : Char) (p : Nat) (h : s[p]? = some ch) :
    lastIndexOf s ch (p : Int) = (p : Int) := by
  have hp : p < s.length := by
    rcases List.getElem?_eq_some.mp h with ⟨h1, _⟩; exact h1
  rw [lastIndexOf_nat, if_neg (by omega)]
  simp only [lastIndexOfAux, List.get?_eq_getElem?, h, if_true]

theorem indexOf_at (s : List Char) (ch : Char) (p : Nat) (h : s[p]? = some ch) :
    indexOf s ch (p : Int) = (p : Int) := by
  have hp : p < s.length := by
    rcases List.getElem?_eq_some.mp h with ⟨h1, _⟩; exact h1
  rw [indexOf_nat, if_pos hp]
  have hd : s.drop p = s[p] :: s.drop (p + 1) := List.drop_eq_getElem_cons hp
  have hc : s[p] = ch := by
    rcases List.getElem?_eq_some.mp h with ⟨_, h2⟩; exact h2
  rw [hd, hc]
  simp [indexOfAux]


theorem length_join (sep : Char) (ls : List (List Char)) :
    (join sep ls).length = (ls.map List.length).sum + (ls.length - 1) := by
  induction ls with
  | nil => simp [join]
  | cons l ls ih =>
    cases ls with
    | nil => simp [join]
    | cons l2 ls2 =>
      simp only [join, List.length_append, List.length_cons, List.map_cons, List.sum_cons] at ih ⊢
      omega

theorem sum_length_identLineSpec_true (ls : List (List Char)) :
    ((ls.map (identLineSpec true)).map List.length).sum
      = (ls.map List.length).sum + ls.countP (lineChangesSpec true) := by
  induction ls with
  | nil => simp
  | cons l ls ih =>
    cases l with
    | nil =>
      simp only [List.map_cons, List.sum_cons, ih]
      simp [identLineSpec, indentLineSpec, lineChangesSpec]
    | cons c cs =>
      simp only [List.map_cons, List.sum_cons, ih]
      simp [identLineSpec, indentLineSpec, lineChangesSpec]
      omega

theorem outdentLineSpec_length (l : List Char) :
    l.length = (outdentLineSpec l).length + (if lineChangesSpec false l = true then 1 else 0) := by
  cases l with
  | nil => simp [outdentLineSpec, lineChangesSpec]
  | cons c cs =>
    by_cases hc : c = '\t'
    · subst hc; simp [outdentLineSpec, lineChangesSpec]
    · have h2 : outdentLineSpec (c :: cs) = c :: cs := by
        unfold outdentLineSpec
        split
        · rename_i heq; simp at heq; exact absurd heq.1 hc
        · rfl
      rw [h2]; simp [lineChangesSpec, hc]

theorem sum_length_identLineSpec_false (ls : List (List Char)) :
    (ls.map List.length).sum
      = ((ls.map (identLineSpec false)).map List.length).sum
        + ls.countP (lineChangesSpec false) := by
  induction ls with
  | nil => simp
  | cons l ls ih =>
    have h := outdentLineSpec_length l
    simp only [List.map_cons, List.sum_cons, List.countP_cons, ih]
    have e : identLineSpec false l = outdentLineSpec l := by simp [identLineSpec]
    rw [e]
    omega

theorem length_join_identLineSpec (ident_right : Bool) (ls : List (List Char)) :
    ((join '\n' (ls.map (identLineSpec ident_right))).length : Int)
      = (join '\n' ls).length
        + (ls.countP (lineChangesSpec ident_right) : Int) * (if ident_right then 1 else -1) := by
  rw [length_join, length_join, List.length_map]
  cases ident_right
  · have := sum_length_identLineSpec_false ls
    simp only [Bool.false_eq_true, if_false]
    omega
  · have := sum_length_identLineSpec_true ls
    simp only [if_true]
    omega

theorem map_identLineSpec_of_count_zero (ident_right : Bool) (ls : List (List Char))
    (h : ls.countP (lineChangesSpec ident_right) = 0) :
    ls.map (identLineSpec ident_right) = ls := by
  induction ls with
  | nil => rfl
  | cons l ls ih =>
    rw [List.countP_cons] at h
    have h1 : lineChangesSpec ident_right l = false := by
      by_contra hne
      simp only [Bool.not_eq_false] at hne
      rw [if_pos hne] at h; omega
    have h2 : ls.countP (lineChangesSpec ident_right) = 0 := by omega
    rw [List.map_cons, ih h2]
    congr 1
    cases ident_right
    · cases l with
      | nil => simp [identLineSpec, outdentLineSpec]
      | cons c cs =>
        have hc : c ≠ '\t' := by
          intro hc; subst hc; simp [lineChangesSpec] at h1
        simp only [identLineSpec, Bool.false_eq_true, if_false]
        unfold outdentLineSpec
        split
        · rename_i heq; simp at heq; exact absurd heq.1 hc
        · rfl
    · cases l with
      | nil => simp [identLineSpec, indentLineSpec]
      | cons c cs => simp [lineChangesSpec] at h1

/-- The working range when neither search for a line break fails. -/
theorem workingRange_interior (ed : TextCursor)
    (hsel : hasSelection ed = true) (a b : Nat)
    (ha : lastIndexOf ed.text '\n' (selectionStart ed) = (a : Int))
    (hb : indexOf ed.text '\n' (selectionEnd ed) = (b : Int)) :
    workingRange ed = { text := ed.text, anchor := a, position := b }
      ∧ a ≤ selectionStart ed ∧ selectionStart ed < selectionEnd ed ∧ selectionEnd ed ≤ b
      ∧ b < ed.text.length ∧ ed.text[a]? = some '\n' ∧ ed.text[b]? = some '\n' := by
  obtain ⟨h1, h2, h3, _⟩ := lastIndexOf_eq_nat _ _ _ _ ha
  obtain ⟨h5, h6, h7, _⟩ := indexOf_eq_nat _ _ _ _ hb
  have hse : selectionStart ed < selectionEnd ed := by
    simp only [hasSelection, bne_iff_ne, ne_eq] at hsel
    simp only [selectionStart, selectionEnd]; omega
  refine ⟨?_, h2, hse, h5, h6, h3, h7⟩
  unfold workingRange
  simp only [ha, hb]
  rw [setPosition_moveAnchor _ _ (by omega), setPosition_keepAnchor _ _ (by simp only []; omega)]


/-- Closed form of `identSelection` when both searches for a line break
succeed (the selection touches neither the first nor the last line): the range
from the line break `a` before the selection to the line break `b` after it is
rewritten as the spec says, and when `count > 0` lines change the selection
becomes `a .. b + count * factor`. -/
theorem identSelection_interior (ident_right : Bool) (ed : TextCursor)
    (hsel : hasSelection ed = true) (a b : Nat)
    (ha : lastIndexOf ed.text '\n' (selectionStart ed) = (a : Int))
    (hb : indexOf ed.text '\n' (selectionEnd ed) = (b : Int)) :
    (identSelection ident_right ed).text = identRangeSpec ident_right ed.text a b
      ∧ (0 < changedLinesSpec ident_right ed.text a b →
          (identSelection ident_right ed).anchor = a
          ∧ ((identSelection ident_right ed).position : Int)
              = b + (changedLinesSpec ident_right ed.text a b : Int)
                  * (if ident_right then 1 else -1))
      ∧ (changedLinesSpec ident_right ed.text a b = 0 → identSelection ident_right ed = ed) := by
  obtain ⟨hw, h1, h2, h3, h4, h5, h6⟩ := workingRange_interior ed hsel a b ha hb
  have hsW : selectedText (workingRange ed) = (ed.text.drop a).take (b - a) := by
    rw [hw]
    simp only [selectedText, selectionStart, selectionEnd]
    rw [min_eq_left (by omega), max_eq_right (by omega)]
  have hsel_len : ((ed.text.drop a).take (b - a)).length = b - a := by
    rw [List.length_take, List.length_drop]; omega
  have hjs := join_split '\n' ((ed.text.drop a).take (b - a))
  have hlen := length_join_identLineSpec ident_right (rangeLinesSpec ed.text a b)
  have hlen0 : (join '\n' (rangeLinesSpec ed.text a b)).length = b - a := by
    unfold rangeLinesSpec; rw [hjs, hsel_len]
  have hid : identSelection ident_right ed =
      if 0 < changedLinesSpec ident_right ed.text a b then
        setPosition
          (setPosition
            (insertText (workingRange ed)
              (join '\n' ((rangeLinesSpec ed.text a b).map (identLineSpec ident_right))))
            (a : Int) MoveMode.MoveAnchor)
          ((b : Int) + (changedLinesSpec ident_right ed.text a b : Int)
            * (if ident_right then 1 else -1)) MoveMode.KeepAnchor
      else ed := by
    unfold identSelection
    rw [if_pos hsel]
    simp only [ha, hb, hsW, identLines_eq_spec, Nat.zero_add]
    simp only [changedLinesSpec, rangeLinesSpec, gt_iff_lt, Nat.cast_pos]
  by_cases hc : 0 < changedLinesSpec ident_right ed.text a b
  · rw [if_pos hc] at hid
    have hins : insertText (workingRange ed)
        (join '\n' ((rangeLinesSpec ed.text a b).map (identLineSpec ident_right)))
        = { text := identRangeSpec ident_right ed.text a b
            anchor := a + (join '\n'
              ((rangeLinesSpec ed.text a b).map (identLineSpec ident_right))).length
            position := a + (join '\n'
              ((rangeLinesSpec ed.text a b).map (identLineSpec ident_right))).length } := by
      rw [hw]
      simp only [insertText, selectionStart, selectionEnd, identRangeSpec]
      rw [min_eq_left (by omega), max_eq_right (by omega)]
    have htl : (identRangeSpec ident_right ed.text a b).length
        = a + (join '\n' ((rangeLinesSpec ed.text a b).map (identLineSpec ident_right))).length
          + (ed.text.length - b) := by
      simp only [identRangeSpec, List.length_append, List.length_take, List.length_drop]
      omega
    obtain ⟨q, hq⟩ : ∃ q : Nat, (q : Int) = (b : Int)
        + (changedLinesSpec ident_right ed.text a b : Int) * (if ident_right then 1 else -1) := by
      refine ⟨((b : Int) + (changedLinesSpec ident_right ed.text a b : Int)
        * (if ident_right then 1 else -1)).toNat, ?_⟩
      rw [Int.toNat_of_nonneg]
      unfold changedLinesSpec at hc ⊢
      cases ident_right
      · simp only [Bool.false_eq_true, if_false] at hlen ⊢; omega
      · simp only [if_true] at hlen ⊢; omega
    have hqle : q ≤ (identRangeSpec ident_right ed.text a b).length := by
      rw [htl]
      unfold changedLinesSpec at hq
      omega
    rw [hins, ← hq] at hid
    rw [setPosition_moveAnchor _ _ (by simp only []; omega),
      setPosition_keepAnchor _ _ (by simp only []; exact hqle)] at hid
    rw [hid]
    refine ⟨rfl, fun _ => ⟨rfl, ?_⟩, fun h0 => by omega⟩
    simp only []; exact hq
  · rw [if_neg hc] at hid
    have h0 : changedLinesSpec ident_right ed.text a b = 0 := by omega
    rw [hid]
    refine ⟨?_, fun h => absurd h hc, fun _ => rfl⟩
    unfold identRangeSpec
    rw [map_identLineSpec_of_count_zero ident_right _ h0]
    unfold rangeLinesSpec
    rw [hjs, List.append_assoc, take_drop_self _ _ _ (by omega)]


theorem outdent_indentLineSpec (l : List Char) :
    identLineSpec false (identLineSpec true l) = l := by
  cases l with
  | nil => simp [identLineSpec, indentLineSpec, outdentLineSpec]
  | cons c cs => simp [identLineSpec, indentLineSpec, outdentLineSpec]

theorem lineChangesSpec_false_of_true (ls : List (List Char))
    (h : ls.countP (lineChangesSpec true) = 0) : ls.countP (lineChangesSpec false) = 0 := by
  rw [List.countP_eq_zero] at h ⊢
  intro l hl
  have := h l hl
  cases l with
  | nil => simp [lineChangesSpec]
  | cons c cs => simp [lineChangesSpec] at this

theorem newline_not_mem_indentLineSpec (l : List Char) (h : '\n' ∉ l) :
    '\n' ∉ identLineSpec true l := by
  cases l with
  | nil => simp [identLineSpec, indentLineSpec]
  | cons c cs =>
    simp only [identLineSpec, indentLineSpec, if_true, List.mem_cons, not_or] at h ⊢
    simp only [reduceCtorEq, if_false, List.mem_cons, not_or]
    exact ⟨by decide, h⟩

/-- Indent followed by outdent restores the text when the selection touches
neither the first nor the last line of the document. -/
theorem ident_round_trip_interior (ed : TextCursor)
    (hsel : hasSelection ed = true) (a b : Nat)
    (ha : lastIndexOf ed.text '\n' (selectionStart ed) = (a : Int))
    (hb : indexOf ed.text '\n' (selectionEnd ed) = (b : Int)) :
    (identSelectionLeft (identSelectionRight ed)).text = ed.text := by
  obtain ⟨hw, h1, h2, h3, h4, h5, h6⟩ := workingRange_interior ed hsel a b ha hb
  obtain ⟨ht, hpos, hzero⟩ := identSelection_interior true ed hsel a b ha hb
  unfold identSelectionLeft identSelectionRight
  by_cases hc : 0 < changedLinesSpec true ed.text a b
  · obtain ⟨hRa, hRp⟩ := hpos hc
    simp only [if_true, mul_one] at hRp
    obtain ⟨R, hR⟩ : ∃ R, R = identSelection true ed := ⟨_, rfl⟩
    rw [← hR] at ht hRa hRp ⊢
    have hRp' : R.position = b + changedLinesSpec true ed.text a b := by omega
    -- the selected range begins with a line break
    have hda : ed.text.drop a = '\n' :: ed.text.drop (a + 1) := by
      rw [List.drop_eq_getElem_cons (by omega)]
      congr 1
      rcases List.getElem?_eq_some.mp h5 with ⟨_, h⟩; exact h
    have hdb : ed.text.drop b = '\n' :: ed.text.drop (b + 1) := by
      rw [List.drop_eq_getElem_cons h4]
      congr 1
      rcases List.getElem?_eq_some.mp h6 with ⟨_, h⟩; exact h
    have hsel_eq : (ed.text.drop a).take (b - a)
        = '\n' :: (ed.text.drop (a + 1)).take (b - a - 1) := by
      rw [hda, show b - a = (b - a - 1) + 1 by omega, List.take_succ_cons]
      simp
    have hlines : rangeLinesSpec ed.text a b
        = [] :: split '\n' ((ed.text.drop (a + 1)).take (b - a - 1)) := by
      unfold rangeLinesSpec; rw [hsel_eq, split_cons_sep]
    obtain ⟨L, hL⟩ : ∃ L, L = split '\n' ((ed.text.drop (a + 1)).take (b - a - 1)) := ⟨_, rfl⟩
    rw [← hL] at hlines
    have hLne : L ≠ [] := by rw [hL]; exact split_ne_nil _ _
    obtain ⟨J, hJ⟩ : ∃ J, J = join '\n' ((rangeLinesSpec ed.text a b).map (identLineSpec true)) :=
      ⟨_, rfl⟩
    have hJhead : ∃ J', J = '\n' :: J' := by
      rw [hJ, hlines]
      cases hL' : L with
      | nil => exact absurd hL' hLne
      | cons l ls =>
        refine ⟨join '\n' ((l :: ls).map (identLineSpec true)), ?_⟩
        simp [join, identLineSpec, indentLineSpec]
    have hJlen : J.length = b - a + changedLinesSpec true ed.text a b := by
      have := length_join_identLineSpec true (rangeLinesSpec ed.text a b)
      rw [← hJ] at this
      have hjs := join_split '\n' ((ed.text.drop a).take (b - a))
      have hl0 : (join '\n' (rangeLinesSpec ed.text a b)).length = b - a := by
        unfold rangeLinesSpec
        rw [hjs, List.length_take, List.length_drop]; omega
      simp only [if_true, mul_one] at this
      unfold changedLinesSpec
      omega
    have hRt : R.text = ed.text.take a ++ (J ++ ed.text.drop b) := by
      rw [ht, identRangeSpec, ← hJ, List.append_assoc]
    have hpre : (ed.text.take a).length = a := by rw [List.length_take]; omega
    have hRa_get : R.text[a]? = some '\n' := by
      obtain ⟨J', hJ'⟩ := hJhead
      rw [hRt, List.getElem?_append_right (by omega), hpre, hJ']
      simp
    have hRb_get : R.text[b + changedLinesSpec true ed.text a b]? = some '\n' := by
      rw [hRt, List.getElem?_append_right (by omega), hpre,
        List.getElem?_append_right (by omega), hJlen, hdb]
      have : b + changedLinesSpec true ed.text a b - a
          - (b - a + changedLinesSpec true ed.text a b) = 0 := by omega
      rw [this]; simp
    have hRsel : hasSelection R = true := by
      simp only [hasSelection, hRa, hRp', bne_iff_ne, ne_eq]; omega
    have hRs : selectionStart R = a := by
      simp only [selectionStart, hRa, hRp']; omega
    have hRe : selectionEnd R = b + changedLinesSpec true ed.text a b := by
      simp only [selectionEnd, hRa, hRp']; omega
    have haR : lastIndexOf R.text '\n' (selectionStart R) = (a : Int) := by
      rw [hRs]; exact lastIndexOf_at _ _ _ hRa_get
    have hbR : indexOf R.text '\n' (selectionEnd R)
        = ((b + changedLinesSpec true ed.text a b : Nat) : Int) := by
      rw [hRe]; exact indexOf_at _ _ _ hRb_get
    obtain ⟨ht2, _, _⟩ := identSelection_interior false R hRsel a _ haR hbR
    rw [ht2]
    unfold identRangeSpec rangeLinesSpec
    have e1 : R.text.take a = ed.text.take a := by
      rw [hRt, List.take_left' hpre]
    have e2 : (R.text.drop a).take (b + changedLinesSpec true ed.text a b - a) = J := by
      rw [hRt, List.drop_left' hpre]
      rw [List.take_left' (by rw [hJlen]; omega)]
    have e3 : R.text.drop (b + changedLinesSpec true ed.text a b) = ed.text.drop b := by
      rw [hRt, ← List.append_assoc]
      apply List.drop_left'
      rw [List.length_append, hpre, hJlen]; omega
    rw [e1, e2, e3, hJ]
    rw [split_join '\n' _ (by
        rw [hlines]; simp) (by
        intro l hl
        rw [List.mem_map] at hl
        obtain ⟨l0, hl0, rfl⟩ := hl
        exact newline_not_mem_indentLineSpec l0
          (not_mem_of_mem_split '\n' _ l0 hl0))]
    rw [List.map_map]
    have hid : (identLineSpec false ∘ identLineSpec true) = id := by
      funext l; exact outdent_indentLineSpec l
    rw [hid, List.map_id]
    have hjs := join_split '\n' ((ed.text.drop a).take (b - a))
    unfold rangeLinesSpec
    rw [hjs, List.append_assoc, take_drop_self _ _ _ (by omega)]
  · have h0 : changedLinesSpec true ed.text a b = 0 := by omega
    rw [hzero h0]
    obtain ⟨_, _, hz2⟩ := identSelection_interior false ed hsel a b ha hb
    rw [hz2 (lineChangesSpec_false_of_true _ h0)]

theorem ident_round_trip_interior_witness :
    (identSelectionLeft (identSelectionRight (mkCursor "x\nab\n\ncd\ny" 3 7))).text
      = "x\nab\n\ncd\ny".toList :=
  ident_round_trip_interior (mkCursor "x\nab\n\ncd\ny" 3 7) (by decide) 1 8 (by decide)
    (by decide)

theorem identSelection_interior_witness :
    (identSelection true (mkCursor "x\nab\n\ncd\ny" 3 7)).text = "x\n\tab\n\n\tcd\ny".toList
      ∧ (identSelection true (mkCursor "x\nab\n\ncd\ny" 3 7)).anchor = 1
      ∧ ((identSelection true (mkCursor "x\nab\n\ncd\ny" 3 7)).position : Int) = 10 := by
  obtain ⟨h1, h2, _⟩ := identSelection_interior true (mkCursor "x\nab\n\ncd\ny" 3 7)
    (by decide) 1 8 (by decide) (by decide)
  obtain ⟨h3, h4⟩ := h2 (by decide)
  refine ⟨?_, h3, ?_⟩
  · rw [h1]; decide
  · rw [h4]; decide


/-! ### Indent / outdent at the first and the last line -/

/-- C1 at two concrete inputs: with `b` selected on the last line of the
two-line text `a`, `b` nothing is indented, where the spec indents the line
`b`; with `b` selected in the one-line text `ab` the tab goes in front of `b`,
where the spec puts it in front of the line. -/
theorem identSelectionRight_first_last_line :
    identSelectionRight (mkCursor "a\nb" 2 3) = mkCursor "a\nb" 2 3
      ∧ identWholeLinesSpec true (mkCursor "a\nb" 2 3) = "a\n\tb".toList
      ∧ (identSelectionRight (mkCursor "ab" 1 2)).text = "a\tb".toList
      ∧ identWholeLinesSpec true (mkCursor "ab" 1 2) = "\tab".toList := by
  decide

/-- C2 at three concrete inputs: in the one-line text `a\tb`, which has no
leading tab, the outdent of the selection `\tb` removes the tab inside the
line, where the spec leaves the line as it is; with `a` selected on the first
line `\ta` the leading tab of that line stays, and so does the one of the last
line of `a\n\tb` with `b` selected, where the spec removes it. -/
theorem identSelectionLeft_first_last_line :
    identSelectionLeft (mkCursor "a\tb" 1 3) = mkCursor "ab" 2 2
      ∧ identWholeLinesSpec false (mkCursor "a\tb" 1 3) = "a\tb".toList
      ∧ identSelectionLeft (mkCursor "\ta" 1 2) = mkCursor "\ta" 1 2
      ∧ identWholeLinesSpec false (mkCursor "\ta" 1 2) = "a".toList
      ∧ identSelectionLeft (mkCursor "a\n\tb" 3 4) = mkCursor "a\n\tb" 3 4
      ∧ identWholeLinesSpec false (mkCursor "a\n\tb" 3 4) = "a\nb".toList := by
  decide

/-- C3 at two concrete inputs: indenting the selected first line of `ab\ncd`
leaves an empty selection, so the outdent that follows does not bring the text
back; and after indenting `ab` with `b` selected the outdent finds no leading
tab. -/
theorem ident_round_trip_first_line :
    (identSelectionLeft (identSelectionRight (mkCursor "ab\ncd" 0 2))).text = "\tab\ncd".toList
      ∧ hasSelection (identSelectionRight (mkCursor "ab\ncd" 0 2)) = false
      ∧ (identSelectionLeft (identSelectionRight (mkCursor "ab" 1 2))).text = "a\tb".toList := by
  decide

/-- C4 at two concrete inputs: after indenting the selected first line of
`ab\ncd` (one line changes) the cursor stands at position 3 with no selection,
so a second indent does nothing; and after indenting with `b\nc` selected (two
lines change) the selection runs from 1 to 6 although the last line now ends
at 7. -/
theorem identSelectionRight_selection_first_line :
    identSelectionRight (mkCursor "ab\ncd" 0 2) = mkCursor "\tab\ncd" 3 3
      ∧ identSelectionRight (identSelectionRight (mkCursor "ab\ncd" 0 2))
          = mkCursor "\tab\ncd" 3 3
      ∧ identSelectionRight (mkCursor "ab\ncd" 1 4) = mkCursor "a\tb\n\tcd" 6 1
      ∧ ("a\tb\n\tcd".toList).length = 7 := by
  decide

end NumberedTextEditor
